import Mathlib

/-!
Shallow embedding of the XorWeyMix PRNG (`src/PRNG_Algorithm.py.py`).

Machine integers are modelled as `ℕ` with explicit reduction modulo `2^64`
exactly where the Python code applies `& MASK64`; Python's arbitrary-precision
integers for `randint` bounds are modelled as `ℤ`.  The rejection-sampling
loop of `randint` has no a-priori iteration bound, so it is modelled with
explicit fuel; `none` marks fuel exhaustion (a case that never corresponds to
a Python behaviour other than "the loop is still running").
-/

namespace XorWeyMix

/-- `MASK64` from the source: `(1 << 64) - 1`. -/
def MASK64 : ℕ := 2 ^ 64 - 1

/-- The generator record: fields `_state`, `_weyl`, `_weyl_step`, `_counter`
of class `XorWeyMixPRNG`, each a 64-bit unsigned integer. -/
structure PRNGState where
  state : ℕ
  weyl : ℕ
  weyl_step : ℕ
  counter : ℕ
  deriving DecidableEq, Repr

/-- The nested `splitmix64` mixing function inside `XorWeyMixPRNG.seed`.
All arithmetic is masked to 64 bits exactly where the Python code masks. -/
def splitmix64 (x : ℕ) : ℕ :=
  let x1 := (x + 0x9E3779B97F4A7C15) % 2 ^ 64
  let x2 := ((x1 ^^^ (x1 >>> 30)) * 0xBF58476D1CE4E5B9) % 2 ^ 64
  let x3 := ((x2 ^^^ (x2 >>> 27)) * 0x94D049BB133111EB) % 2 ^ 64
  x3 ^^^ (x3 >>> 31)

/-- `XorWeyMixPRNG.seed`: derive the four fields from a seed.  Python's
`x or 1` idiom is the conditional replacing 0 by 1. -/
def seedGen (seed : ℕ) : PRNGState :=
  let s := seed % 2 ^ 64
  let st := splitmix64 s
  let w := splitmix64 (s ^^^ 0xFACEB00CDEADBEEF)
  { state := if st = 0 then 1 else st
    weyl := if w = 0 then 1 else w
    weyl_step := 0x9E3779B97F4A7C15
    counter := 0 }

/-- The xorshift update in `_step` (lines `x ^= (x << 13) & MASK64;`
`x ^= (x >> 7) & MASK64; x ^= (x << 17) & MASK64; x &= MASK64`; the masks on
the right-shift are no-ops on 64-bit values and are dropped). -/
def xorshift (x0 : ℕ) : ℕ :=
  let x1 := x0 ^^^ ((x0 <<< 13) % 2 ^ 64)
  let x2 := x1 ^^^ (x1 >>> 7)
  let x3 := x2 ^^^ ((x2 <<< 17) % 2 ^ 64)
  x3 % 2 ^ 64

/-- `XorWeyMixPRNG._step`: advance the internal state and produce one raw
64-bit output.  Note that the combination `z` uses the local `x` (the value
of the xorshift BEFORE the zero-replacement), exactly as the Python does. -/
def stepRaw (g : PRNGState) : ℕ × PRNGState :=
  let x := xorshift g.state
  let newState := if x ≠ 0 then x else 0xFFFFFFFFFFFFFFFF
  let newWeyl := (g.weyl + g.weyl_step) % 2 ^ 64
  let z0 := (x + newWeyl + g.counter) % 2 ^ 64
  let newCounter := (g.counter + 1) % 2 ^ 64
  let z1 := (z0 ^^^ (z0 >>> 30)) % 2 ^ 64
  let z2 := (z1 * 0xBF58476D1CE4E5B9) % 2 ^ 64
  let z3 := (z2 ^^^ (z2 >>> 27)) % 2 ^ 64
  let z4 := (z3 * 0x94D049BB133111EB) % 2 ^ 64
  let z5 := z4 ^^^ (z4 >>> 31)
  (z5 % 2 ^ 64,
   { state := newState, weyl := newWeyl, weyl_step := g.weyl_step,
     counter := newCounter })

/-- States reachable by constructing/reseeding with some seed and then
taking any number of raw steps (every public operation only ever advances
the state through `stepRaw`). -/
inductive Reachable : PRNGState → Prop
  | seed (s : ℕ) : Reachable (seedGen s)
  | step (g : PRNGState) : Reachable g → Reachable (stepRaw g).2

/-- The raw output is reduced modulo `2^64` (final `return z & MASK64`). -/
theorem stepRaw_fst_lt (g : PRNGState) : (stepRaw g).1 < 2 ^ 64 := by
  unfold stepRaw
  exact Nat.mod_lt _ (by positivity)

theorem shr_le (x k : ℕ) : x >>> k ≤ x := by
  rw [Nat.shiftRight_eq_div_pow]
  exact Nat.div_le_self _ _

theorem splitmix64_lt (x : ℕ) : splitmix64 x < 2 ^ 64 := by
  unfold splitmix64
  exact Nat.xor_lt_two_pow (Nat.mod_lt _ (by positivity))
    (lt_of_le_of_lt (shr_le _ _) (Nat.mod_lt _ (by positivity)))

/-- The state invariant carried by every reachable generator. -/
theorem reachable_state_inv {g : PRNGState} (h : Reachable g) :
    g.state ≠ 0 ∧ g.state < 2 ^ 64 := by
  induction h with
  | seed s =>
    unfold seedGen
    constructor
    · simp only
      split
      · exact one_ne_zero
      · assumption
    · simp only
      split
      · exact by norm_num
      · exact splitmix64_lt _
  | step g _ ih =>
    unfold stepRaw
    constructor
    · simp only
      split
      · assumption
      · norm_num
    · simp only
      split
      · exact Nat.mod_lt _ (by positivity)
      · norm_num

/-! Injectivity of the three xorshift stages at zero: each stage is a
linear bijection of the 64-bit vector space, so only 0 maps to 0. -/

theorem xor_shl_zero {k x : ℕ} (hk : 0 < k) (hx : x < 2 ^ 64)
    (h : x ^^^ ((x <<< k) % 2 ^ 64) = 0) : x = 0 := by
  have hx2 : x = (x <<< k) % 2 ^ 64 := Nat.xor_eq_zero.mp h
  have hbit : ∀ i, x.testBit i = false := by
    intro i
    induction i using Nat.strong_induction_on with
    | _ i ih =>
      by_cases hi : i < 64
      · have heq : x.testBit i = ((x <<< k) % 2 ^ 64).testBit i := by
          rw [← hx2]
        rw [Nat.testBit_mod_two_pow, Nat.testBit_shiftLeft] at heq
        by_cases hik : k ≤ i
        · have hlt : i - k < i := Nat.sub_lt (lt_of_lt_of_le hk hik) hk
          rw [heq]
          simp [hi, hik, ge_iff_le, ih _ hlt]
        · rw [heq]
          simp [ge_iff_le, hik]
      · exact Nat.testBit_lt_two_pow (lt_of_lt_of_le hx
          (Nat.pow_le_pow_right (by norm_num) (Nat.le_of_not_lt hi)))
  exact Nat.eq_of_testBit_eq fun i => by rw [hbit i, Nat.zero_testBit]

theorem xor_shr_zero {k x : ℕ} (hk : 0 < k) (hx : x < 2 ^ 64)
    (h : x ^^^ (x >>> k) = 0) : x = 0 := by
  have hx2 : x = x >>> k := Nat.xor_eq_zero.mp h
  have key : ∀ d i, 64 ≤ i + d → x.testBit i = false := by
    intro d
    induction d with
    | zero =>
      intro i hi
      exact Nat.testBit_lt_two_pow (lt_of_lt_of_le hx
        (Nat.pow_le_pow_right (by norm_num) (by omega)))
    | succ d ih =>
      intro i hi
      by_cases h64 : 64 ≤ i
      · exact Nat.testBit_lt_two_pow (lt_of_lt_of_le hx
          (Nat.pow_le_pow_right (by norm_num) h64))
      · have heq : x.testBit i = (x >>> k).testBit i := by rw [← hx2]
        rw [Nat.testBit_shiftRight] at heq
        rw [heq]
        exact ih (k + i) (by omega)
  exact Nat.eq_of_testBit_eq fun i => by rw [key 64 i (by omega), Nat.zero_testBit]

theorem xorshift_ne_zero {x : ℕ} (hx : x < 2 ^ 64) (hnz : x ≠ 0) :
    xorshift x ≠ 0 := by
  unfold xorshift
  intro h
  have h1 : x ^^^ ((x <<< 13) % 2 ^ 64) < 2 ^ 64 :=
    Nat.xor_lt_two_pow hx (Nat.mod_lt _ (by positivity))
  have h2 : (x ^^^ ((x <<< 13) % 2 ^ 64)) ^^^ ((x ^^^ ((x <<< 13) % 2 ^ 64)) >>> 7) < 2 ^ 64 :=
    Nat.xor_lt_two_pow h1 (lt_of_le_of_lt (shr_le _ _) h1)
  have h3 : (x ^^^ ((x <<< 13) % 2 ^ 64)) ^^^ ((x ^^^ ((x <<< 13) % 2 ^ 64)) >>> 7) ^^^
      ((((x ^^^ ((x <<< 13) % 2 ^ 64)) ^^^ ((x ^^^ ((x <<< 13) % 2 ^ 64)) >>> 7)) <<< 17) % 2 ^ 64) < 2 ^ 64 :=
    Nat.xor_lt_two_pow h2 (Nat.mod_lt _ (by positivity))
  simp only at h
  rw [Nat.mod_eq_of_lt h3] at h
  have e2 := xor_shl_zero (k := 17) (by norm_num) h2 h
  have e1 := xor_shr_zero (k := 7) (by norm_num) h1 e2
  exact hnz (xor_shl_zero (k := 13) (by norm_num) hx e1)

/-- Spec §4.2 step, stated from the specification's words for the refinement
claim: identical to `stepRaw` except that the combination `z` uses the
POST-replacement state value, as the spec prescribes. -/
def stepSpec (g : PRNGState) : ℕ × PRNGState :=
  let x := xorshift g.state
  let newState := if x = 0 then 2 ^ 64 - 1 else x
  let newWeyl := (g.weyl + g.weyl_step) % 2 ^ 64
  let z0 := (newState + newWeyl + g.counter) % 2 ^ 64
  let newCounter := (g.counter + 1) % 2 ^ 64
  let z1 := (z0 ^^^ (z0 >>> 30)) % 2 ^ 64
  let z2 := (z1 * 0xBF58476D1CE4E5B9) % 2 ^ 64
  let z3 := (z2 ^^^ (z2 >>> 27)) % 2 ^ 64
  let z4 := (z3 * 0x94D049BB133111EB) % 2 ^ 64
  let z5 := z4 ^^^ (z4 >>> 31)
  (z5 % 2 ^ 64,
   { state := newState, weyl := newWeyl, weyl_step := g.weyl_step,
     counter := newCounter })

/-- The first `n` raw outputs produced by `rand_uint64` from a state. -/
def rawOutputs (g : PRNGState) : ℕ → List ℕ
  | 0 => []
  | n + 1 => (stepRaw g).1 :: rawOutputs (stepRaw g).2 n

/-- `XorWeyMixPRNG.rand`: one raw output, drop the low 11 bits, divide by
`2^53`.  The float result is modelled exactly as a rational: the numerator
fits in 53 bits and the divisor is a power of two, so the IEEE-754 double
computation `rv / float(1 << 53)` is exact and the model loses nothing. -/
def rand (g : PRNGState) : ℚ × PRNGState :=
  let rg := stepRaw g
  (((rg.1 >>> 11 : ℕ) : ℚ) / 2 ^ 53, rg.2)

/-- The two error kinds of the library: `ValueError("a must be <= b")` from
`randint` and `IndexError("choice from empty sequence")` from `choice`. -/
inductive PRNGError where
  | invalidRange
  | emptySequence
  deriving DecidableEq, Repr

/-- Binary length by structural recursion on a fuel argument (so that the
kernel can evaluate it); `bitLen` below supplies enough fuel. -/
def bitLenFuel : ℕ → ℕ → ℕ
  | _, 0 => 0
  | 0, _ + 1 => 0
  | f + 1, n + 1 => bitLenFuel f ((n + 1) / 2) + 1

/-- Python's `int.bit_length` on nonnegative integers: the number of binary
digits, `⌊log2 n⌋ + 1` for `n ≥ 1` and `0` for `0`. -/
def bitLen (n : ℕ) : ℕ := bitLenFuel n n

/-- The mask computed by `randint`: `(1 << (width.bit_length())) - 1`. -/
def maskFor (width : ℕ) : ℕ := (1 <<< bitLen width) - 1

/-- The rejection-sampling `while True` loop of `randint`, with explicit
fuel; `none` means the fuel ran out with every draw rejected so far. -/
def randintLoop (w mask : ℕ) (a : ℤ) : ℕ → PRNGState →
    Except PRNGError (Option ℤ) × PRNGState
  | 0, g => (Except.ok none, g)
  | fuel + 1, g =>
    let rg := stepRaw g
    let r := rg.1 &&& mask
    if r < w then (Except.ok (some (a + (r : ℤ))), rg.2)
    else randintLoop w mask a fuel rg.2

/-- `XorWeyMixPRNG.randint`: bounds are arbitrary Python integers (`ℤ`).
The `width <= 0` fallback branch of the source is kept verbatim even though
it is unreachable once `a <= b` holds. -/
def randint (fuel : ℕ) (g : PRNGState) (a b : ℤ) :
    Except PRNGError (Option ℤ) × PRNGState :=
  if b < a then (Except.error PRNGError.invalidRange, g)
  else
    let width : ℤ := b - a + 1
    if width ≤ 0 then
      let rg := stepRaw g
      (Except.ok (some (a + (rg.1 : ℤ) % (b - a + 1))), rg.2)
    else
      randintLoop width.toNat (maskFor width.toNat) a fuel g

/-- `XorWeyMixPRNG.choice`: empty check, then an index from
`randint(0, len(seq)-1)`, then the element at that index. -/
def choice {α : Type _} (fuel : ℕ) (g : PRNGState) (seq : List α) :
    Except PRNGError (Option α) × PRNGState :=
  if seq.isEmpty then (Except.error PRNGError.emptySequence, g)
  else
    match randint fuel g 0 ((seq.length : ℤ) - 1) with
    | (Except.ok (some idx), g1) => (Except.ok (seq.get? idx.toNat), g1)
    | (Except.ok none, g1) => (Except.ok none, g1)
    | (Except.error e, g1) => (Except.error e, g1)

/-- The simultaneous assignment `lst[i], lst[j] = lst[j], lst[i]`.  Both
indices are always in range at the call site; out-of-range is the identity. -/
def swapIdx {α : Type _} (l : List α) (i j : ℕ) : List α :=
  match l.get? i, l.get? j with
  | some x, some y => (l.set i y).set j x
  | _, _ => l

/-- The `for i in range(n-1, 0, -1)` loop of `shuffle`; the argument is the
current index `i`, counting down to 1.  `none` only when a `randint` call
runs out of fuel. -/
def shuffleGo {α : Type _} (fuel : ℕ) : ℕ → List α → PRNGState →
    Option (List α × PRNGState)
  | 0, l, g => some (l, g)
  | k + 1, l, g =>
    match randint fuel g 0 ((k + 1 : ℕ) : ℤ) with
    | (Except.ok (some j), g1) => shuffleGo fuel k (swapIdx l (k + 1) j.toNat) g1
    | _ => none

/-- `XorWeyMixPRNG.shuffle` (in-place in Python; the model returns the new
list). -/
def shuffle {α : Type _} (fuel : ℕ) (g : PRNGState) (l : List α) :
    Option (List α × PRNGState) :=
  shuffleGo fuel (l.length - 1) l g

/-! Characterization of `bitLen`. -/

theorem bitLenFuel_congr : ∀ n f g, n ≤ f → n ≤ g →
    bitLenFuel f n = bitLenFuel g n := by
  intro n
  induction n using Nat.strong_induction_on with
  | _ n ih =>
    intro f g hf hg
    match n, f, g with
    | 0, f, g => cases f <;> cases g <;> rfl
    | m + 1, f + 1, g + 1 =>
      simp only [bitLenFuel]
      have hhalf : (m + 1) / 2 < m + 1 := Nat.div_lt_self (Nat.succ_pos m) one_lt_two
      rw [ih _ hhalf f g (by omega) (by omega)]

theorem bitLen_succ (m : ℕ) : bitLen (m + 1) = bitLen ((m + 1) / 2) + 1 := by
  have hhalf : (m + 1) / 2 ≤ m := by omega
  show bitLenFuel (m + 1) (m + 1) = _
  simp only [bitLenFuel]
  rw [bitLenFuel_congr ((m + 1) / 2) m ((m + 1) / 2) hhalf le_rfl]
  rfl

/-- `bitLen n` is the least `k` with `n < 2 ^ k`. -/
theorem bitLen_le_iff : ∀ n k : ℕ, bitLen n ≤ k ↔ n < 2 ^ k := by
  intro n
  induction n using Nat.strong_induction_on with
  | _ n ih =>
    intro k
    match n with
    | 0 =>
      simp only [bitLen, bitLenFuel]
      exact ⟨fun _ => Nat.pos_pow_of_pos k (by norm_num), fun _ => Nat.zero_le k⟩
    | m + 1 =>
      rw [bitLen_succ]
      match k with
      | 0 =>
        constructor
        · omega
        · intro h; omega
      | k + 1 =>
        have hhalf : (m + 1) / 2 < m + 1 := Nat.div_lt_self (Nat.succ_pos m) one_lt_two
        rw [Nat.succ_le_succ_iff, ih _ hhalf k]
        rw [Nat.div_lt_iff_lt_mul (by norm_num : 0 < 2)]
        rw [pow_succ]

theorem lt_two_pow_bitLen (n : ℕ) : n < 2 ^ bitLen n :=
  (bitLen_le_iff n (bitLen n)).mp le_rfl

/-- Cross-check: `bitLen` agrees with Mathlib's `Nat.size`. -/
theorem bitLen_eq_size (n : ℕ) : bitLen n = Nat.size n :=
  le_antisymm ((bitLen_le_iff n _).mpr (Nat.lt_size_self n))
    (Nat.size_le.mpr (lt_two_pow_bitLen n))

theorem maskFor_eq (w : ℕ) : maskFor w = 2 ^ bitLen w - 1 := by
  rw [maskFor, Nat.one_shiftLeft]

/-! Behaviour of the rejection loop and of `randint`. -/

theorem randintLoop_ok {w mask : ℕ} {a : ℤ} :
    ∀ (fuel : ℕ) (g : PRNGState) (v : ℤ),
      (randintLoop w mask a fuel g).1 = Except.ok (some v) →
      ∃ r : ℕ, r < w ∧ r < 2 ^ 64 ∧ v = a + r := by
  intro fuel
  induction fuel with
  | zero =>
    intro g v h
    simp [randintLoop] at h
  | succ f ih =>
    intro g v h
    simp only [randintLoop] at h
    split at h
    · refine ⟨(stepRaw g).1 &&& mask, by assumption, ?_, ?_⟩
      · exact lt_of_le_of_lt Nat.and_le_left (stepRaw_fst_lt g)
      · simpa using h.symm
    · exact ih _ v h

theorem randintLoop_ne_error {w mask : ℕ} {a : ℤ} :
    ∀ (fuel : ℕ) (g : PRNGState) (e : PRNGError),
      (randintLoop w mask a fuel g).1 ≠ Except.error e := by
  intro fuel
  induction fuel with
  | zero =>
    intro g e h
    simp [randintLoop] at h
  | succ f ih =>
    intro g e h
    simp only [randintLoop] at h
    split at h
    · simp at h
    · exact ih _ e h

theorem randint_error_iff (fuel : ℕ) (g : PRNGState) (a b : ℤ) (e : PRNGError) :
    (randint fuel g a b).1 = Except.error e ↔
      e = PRNGError.invalidRange ∧ b < a := by
  by_cases hba : b < a
  · simp [randint, if_pos hba, hba, eq_comm]
  · by_cases hw : (b - a + 1 : ℤ) ≤ 0
    · exact absurd hw (by omega)
    · simp only [randint, if_neg hba, if_neg hw]
      simp only [hba, and_false, iff_false]
      exact randintLoop_ne_error fuel g e

/-! The swap used by `shuffle` preserves the multiset of elements. -/

theorem cons_set_perm {α : Type _} : ∀ (t : List α) (j : ℕ) (a y : α),
    t.get? j = some y → (y :: t.set j a).Perm (a :: t) := by
  intro t
  induction t with
  | nil =>
    intro j a y h
    simp at h
  | cons b t ih =>
    intro j a y h
    cases j with
    | zero =>
      simp only [List.get?] at h
      injection h with h
      subst h
      exact List.Perm.swap a b t
    | succ j =>
      simp only [List.get?] at h
      have h1 : (y :: b :: t.set j a).Perm (b :: y :: t.set j a) :=
        List.Perm.swap b y _
      have h2 : (b :: y :: t.set j a).Perm (b :: a :: t) := (ih j a y h).cons b
      exact h1.trans (h2.trans (List.Perm.swap a b t))

theorem set_set_perm {α : Type _} : ∀ (l : List α) (i j : ℕ) (x y : α),
    l.get? i = some x → l.get? j = some y → ((l.set i y).set j x).Perm l := by
  intro l
  induction l with
  | nil =>
    intro i j x y hx _
    simp at hx
  | cons c t ih =>
    intro i j x y hx hy
    cases i with
    | zero =>
      simp only [List.get?] at hx
      injection hx with hx
      subst hx
      cases j with
      | zero =>
        simp only [List.get?] at hy
        injection hy with hy
        subst hy
        simp only [List.set]
        exact List.Perm.refl _
      | succ j =>
        simp only [List.get?] at hy
        simpa only [List.set] using cons_set_perm t j c y hy
    | succ i =>
      simp only [List.get?] at hx
      cases j with
      | zero =>
        simp only [List.get?] at hy
        injection hy with hy
        subst hy
        simpa only [List.set] using cons_set_perm t i c x hx
      | succ j =>
        simpa only [List.set] using (ih i j x y hx hy).cons c

theorem swapIdx_perm {α : Type _} (l : List α) (i j : ℕ) :
    (swapIdx l i j).Perm l := by
  unfold swapIdx
  split
  · exact set_set_perm l i j _ _ (by assumption) (by assumption)
  · exact List.Perm.refl l

theorem shuffleGo_perm {α : Type _} (fuel : ℕ) :
    ∀ (k : ℕ) (l : List α) (g : PRNGState) (l2 : List α) (g2 : PRNGState),
      shuffleGo fuel k l g = some (l2, g2) → l2.Perm l := by
  intro k
  induction k with
  | zero =>
    intro l g l2 g2 h
    simp only [shuffleGo, Option.some_inj, Prod.mk.injEq] at h
    rw [← h.1]
  | succ k ih =>
    intro l g l2 g2 h
    simp only [shuffleGo] at h
    rcases hres : randint fuel g 0 ((k + 1 : ℕ) : ℤ) with ⟨res, g1⟩
    rw [hres] at h
    match res with
    | Except.ok (some j) =>
      exact (ih _ _ _ _ h).trans (swapIdx_perm l (k + 1) j.toNat)
    | Except.ok none => simp at h
    | Except.error e => simp at h

/-! Claim theorems. -/

/-- C1 (counterexample): the claim that `randint`'s rejection mask equals
`2 ^ ⌈log2 width⌉ - 1` for every `width ∈ [1, 2^64]` is false: at
`width = 1` the code computes mask `1` while `2 ^ ⌈log2 1⌉ - 1 = 0`
(the code masks with the bit length of `width`, not of `width - 1`). -/
theorem maskFor_clog_counterexample :
    ¬ (∀ w : ℕ, 1 ≤ w → w ≤ 2 ^ 64 → maskFor w = 2 ^ Nat.clog 2 w - 1) := by
  intro hcl
  have h1 := hcl 1 le_rfl (by norm_num)
  rw [Nat.clog_one_right, show maskFor 1 = 1 from rfl] at h1
  norm_num at h1

/-- C1 (amended): the mask computed by `randint` is the smallest all-ones
bitmask covering `width` itself (not `width - 1`): it is of the form
`2 ^ k - 1`, it is at least `width`, and it is the least such mask. -/
theorem maskFor_smallest_covering (w k : ℕ) (hw : 1 ≤ w) :
    maskFor w = 2 ^ bitLen w - 1 ∧ w ≤ maskFor w ∧
      (w ≤ 2 ^ k - 1 → maskFor w ≤ 2 ^ k - 1) := by
  refine ⟨maskFor_eq w, ?_, ?_⟩
  · have := lt_two_pow_bitLen w
    rw [maskFor_eq]
    omega
  · intro hk
    have h2k : 1 ≤ 2 ^ k := Nat.one_le_two_pow
    have hlt : w < 2 ^ k := by omega
    have hle := (bitLen_le_iff w k).mpr hlt
    have := Nat.pow_le_pow_right (by norm_num : 1 ≤ 2) hle
    rw [maskFor_eq]
    omega

theorem maskFor_smallest_covering_witness :
    maskFor 5 = 2 ^ bitLen 5 - 1 ∧ 5 ≤ maskFor 5 ∧
      (5 ≤ 2 ^ 3 - 1 → maskFor 5 ≤ 2 ^ 3 - 1) :=
  maskFor_smallest_covering 5 3 (by norm_num)

/-- C2: on every reachable generator state one raw step performs exactly the
xorshift (13/7/17) with zero-replacement by `2^64 - 1`, the Weyl advance,
the combination `z = state + weyl + counter` with the post-replacement state
value followed by the counter increment, and the 30/27/31 scramble with
multipliers `0xBF58476D1CE4E5B9` and `0x94D049BB133111EB` — i.e. the source
step (`stepRaw`, which combines with the pre-replacement value) agrees with
the spec's step (`stepSpec`) on reachable states, because the xorshift of a
nonzero state is never zero. -/
theorem stepRaw_eq_stepSpec (g : PRNGState) (h : Reachable g) :
    stepRaw g = stepSpec g := by
  obtain ⟨hnz, hlt⟩ := reachable_state_inv h
  have hx := xorshift_ne_zero hlt hnz
  unfold stepRaw stepSpec
  simp [hx]

theorem stepRaw_eq_stepSpec_witness : stepRaw (seedGen 0) = stepSpec (seedGen 0) :=
  stepRaw_eq_stepSpec (seedGen 0) (Reachable.seed 0)

/-- C3: two generators independently constructed from the same 64-bit seed
produce bit-for-bit identical sequences of the first `n` raw outputs; in
the pure functional embedding construction and stepping are functions of
the seed, so the two runs coincide definitionally. -/
theorem rawOutputs_deterministic (s n : ℕ) :
    rawOutputs (seedGen s) n = rawOutputs (seedGen s) n := rfl

/-- C4: `randint` raises the invalid-range error iff `a > b`, `choice`
raises the empty-collection error iff the sequence is empty, and in both
error cases the generator state is returned unchanged (the check precedes
any call to the raw step). -/
theorem randint_choice_error_contract {α : Type} (fuel : ℕ) (g : PRNGState)
    (a b : ℤ) (seq : List α) :
    ((randint fuel g a b).1 = Except.error PRNGError.invalidRange ↔ b < a) ∧
    (b < a → (randint fuel g a b).2 = g) ∧
    ((choice fuel g seq).1 = Except.error PRNGError.emptySequence ↔ seq = []) ∧
    (seq = [] → (choice fuel g seq).2 = g) := by
  refine ⟨?_, ?_, ?_, ?_⟩
  · rw [randint_error_iff]
    simp
  · intro hba
    simp [randint, if_pos hba]
  · by_cases hemp : seq.isEmpty
    · simp [choice, hemp, List.isEmpty_iff.mp hemp]
    · have hne : seq ≠ [] := by
        intro hcon
        exact hemp (by simp [hcon])
      simp only [choice, if_neg hemp]
      rcases hres : randint fuel g 0 ((seq.length : ℤ) - 1) with ⟨res, g1⟩
      match res with
      | Except.ok (some idx) => simp [hres, hne]
      | Except.ok none => simp [hres, hne]
      | Except.error e =>
        have herr : (randint fuel g 0 ((seq.length : ℤ) - 1)).1 = Except.error e := by
          rw [hres]
        obtain ⟨rfl, hlt⟩ := (randint_error_iff _ _ _ _ _).mp herr
        have : 1 ≤ seq.length := List.length_pos.mpr hne
        omega
  · intro hcon
    simp [choice, hcon]

theorem randint_choice_error_contract_witness :
    ((randint 1 (seedGen 0) 5 3).1 = Except.error PRNGError.invalidRange ↔ (3 : ℤ) < 5) ∧
    ((3 : ℤ) < 5 → (randint 1 (seedGen 0) 5 3).2 = seedGen 0) ∧
    ((choice 1 (seedGen 0) ([] : List ℕ)).1 = Except.error PRNGError.emptySequence ↔
      ([] : List ℕ) = []) ∧
    (([] : List ℕ) = [] → (choice 1 (seedGen 0) ([] : List ℕ)).2 = seedGen 0) :=
  randint_choice_error_contract 1 (seedGen 0) 5 3 ([] : List ℕ)

/-- C5: the invariant `state ≠ 0` holds after construction/reseeding with
any seed and is preserved by every raw step: every reachable generator
state has a nonzero `state` field. -/
theorem reachable_state_ne_zero (g : PRNGState) (h : Reachable g) :
    g.state ≠ 0 :=
  (reachable_state_inv h).1

theorem reachable_state_ne_zero_witness : (seedGen 0).state ≠ 0 :=
  reachable_state_ne_zero (seedGen 0) (Reachable.seed 0)

/-- C6: whenever `randint a b` (with `a ≤ b`) returns a value, that value
lies in `[a, b]`; for `a = b` the value equals `a`. -/
theorem randint_in_range (fuel : ℕ) (g : PRNGState) (a b v : ℤ)
    (hab : a ≤ b) (h : (randint fuel g a b).1 = Except.ok (some v)) :
    a ≤ v ∧ v ≤ b ∧ (a = b → v = a) := by
  have hba : ¬ b < a := not_lt.mpr hab
  have hple : ¬ (b - a + 1 ≤ 0) := by omega
  simp only [randint, if_neg hba, if_neg hple] at h
  obtain ⟨r, hrw, _, rfl⟩ := randintLoop_ok fuel g _ h
  refine ⟨by omega, ?_, by omega⟩
  omega

theorem randint_in_range_witness :
    (3 : ℤ) ≤ 5 ∧ (5 : ℤ) ≤ 5 ∧ ((3 : ℤ) = 5 → (5 : ℤ) = 3) :=
  randint_in_range 10 (seedGen 0) 3 5 5 (by norm_num) (by rfl)

/-- C7: `rand` returns exactly `(r >>> 11) / 2^53` for one raw output `r`
(the IEEE-754 double computation is exact here, since the numerator has at
most 53 bits and the divisor is a power of two), and the result lies in
`[0, 1)` — in particular it never equals 1. -/
theorem rand_exact_and_bounds (g : PRNGState) :
    (rand g).1 = (((stepRaw g).1 >>> 11 : ℕ) : ℚ) / 2 ^ 53 ∧
    0 ≤ (rand g).1 ∧ (rand g).1 < 1 := by
  refine ⟨rfl, div_nonneg (Nat.cast_nonneg _) (by positivity), ?_⟩
  have h53 : (stepRaw g).1 >>> 11 < 2 ^ 53 := by
    rw [Nat.shiftRight_eq_div_pow]
    rw [Nat.div_lt_iff_lt_mul (by positivity : 0 < 2 ^ 11)]
    calc (stepRaw g).1 < 2 ^ 64 := stepRaw_fst_lt g
    _ = 2 ^ 53 * 2 ^ 11 := by norm_num
  show (((stepRaw g).1 >>> 11 : ℕ) : ℚ) / 2 ^ 53 < 1
  rw [div_lt_one (by positivity)]
  exact_mod_cast h53

/-- C8: `shuffle` traverses indices `length-1` down to `1`, drawing `j` in
`[0, i]` through `randint` and swapping positions `i` and `j` (this is the
definition of `shuffle`/`shuffleGo`); whenever it completes, the resulting
list is a permutation of the input — same multiset, same length. -/
theorem shuffle_perm {α : Type _} (fuel : ℕ) (g : PRNGState) (l l2 : List α)
    (g2 : PRNGState) (h : shuffle fuel g l = some (l2, g2)) :
    l2.Perm l ∧ l2.length = l.length := by
  have hp := shuffleGo_perm fuel (l.length - 1) l g l2 g2 h
  exact ⟨hp, hp.length_eq⟩

theorem shuffle_perm_witness :
    ([4, 3, 2, 1] : List ℕ).Perm [1, 2, 3, 4] ∧
      ([4, 3, 2, 1] : List ℕ).length = ([1, 2, 3, 4] : List ℕ).length :=
  shuffle_perm 64 (seedGen 0) [1, 2, 3, 4] [4, 3, 2, 1]
    { state := 13034835738037833309, weyl := 2776988433394734252,
      weyl_step := 11400714819323198485, counter := 6 } (by decide)

/-- C10: when `b - a + 1 > 2^64`, every value `randint a b` returns lies in
`[a, a + 2^64 - 1]` — values in `(a + 2^64 - 1, b]` are never returned,
because the mask then covers all 64 output bits and each draw is an
unmasked raw 64-bit output. -/
theorem randint_large_width (fuel : ℕ) (g : PRNGState) (a b v : ℤ)
    (hw : 2 ^ 64 < b - a + 1)
    (h : (randint fuel g a b).1 = Except.ok (some v)) :
    a ≤ v ∧ v ≤ a + 2 ^ 64 - 1 := by
  have hba : ¬ b < a := by omega
  have hple : ¬ (b - a + 1 ≤ 0) := by omega
  simp only [randint, if_neg hba, if_neg hple] at h
  obtain ⟨r, _, hr64, rfl⟩ := randintLoop_ok fuel g _ h
  constructor <;> omega

theorem randint_large_width_witness :
    (0 : ℤ) ≤ 3116513654798306758 ∧
      (3116513654798306758 : ℤ) ≤ 0 + 2 ^ 64 - 1 :=
  randint_large_width 1 (seedGen 0) 0 (2 ^ 64) 3116513654798306758
    (by norm_num) (by rfl)

end XorWeyMix
